import Mathlib

/-!
Shallow embedding of the separate-chaining hash table from
`src/src/lib.rs` (crate `hashtable`).

The table holds a `Vec` of `BUCKET_SIZE = 8` buckets; each bucket is a
singly linked list of `Node { key, value, next }` together with a `len`
field.  We model a chain as a `List (K × V)` (head of the list = head of
the chain) and a bucket as that list paired with its `len` field, kept
separate exactly as in the source.  The Rust `DefaultHasher` is modelled
by an arbitrary function `hash64 : K → Nat`; `HashTable::hash` reduces
it modulo `BUCKET_SIZE`, as in the source.
-/

namespace HashTbl

/-- `const BUCKET_SIZE: usize = 8;` -/
def BUCKET_SIZE : Nat := 8

/-- `struct Bucket { head: Link<K, V>, len: usize }`: the chain reachable
from `head`, plus the stored `len` field. -/
structure Bucket (K V : Type) where
  chain : List (K × V)
  len : Nat
deriving DecidableEq

/-- `struct HashTable { buckets: Vec<Bucket<K, V>> }`. -/
structure HashTable (K V : Type) where
  buckets : List (Bucket K V)
deriving DecidableEq

variable {K V : Type} [DecidableEq K]

/-- The scanning loop shared by `Bucket::insert` / `remove` / `get`:
does some node of the chain carry an equal key? -/
def chainContains (key : K) : List (K × V) → Bool
  | [] => false
  | (k, _) :: rest => if k = key then true else chainContains key rest

/-- The found-branch of `Bucket::insert`: overwrite the value of the
first node whose key equals `key`, leaving everything else in place. -/
def chainOverwrite (key : K) (value : V) : List (K × V) → List (K × V)
  | [] => []
  | (k, v) :: rest =>
    if k = key then (k, value) :: rest else (k, v) :: chainOverwrite key value rest

/-- The splice in `Bucket::remove`: `*current = node.next.take()` at the
first node whose key equals `key`; no match leaves the chain unchanged. -/
def chainRemove (key : K) : List (K × V) → List (K × V)
  | [] => []
  | (k, v) :: rest =>
    if k = key then rest else (k, v) :: chainRemove key rest

/-- The loop of `Bucket::get`: value of the first node whose key equals
`key`, or `None`. -/
def chainGet (key : K) : List (K × V) → Option V
  | [] => none
  | (k, v) :: rest =>
    if k = key then some v else chainGet key rest

/-- `Bucket::insert`: scan for an equal key; overwrite its value in
place if found, otherwise link a new node in as the new head and
increment `len`. -/
def Bucket.insert (key : K) (value : V) (b : Bucket K V) : Bucket K V :=
  if chainContains key b.chain then
    { chain := chainOverwrite key value b.chain, len := b.len }
  else
    { chain := (key, value) :: b.chain, len := b.len + 1 }

/-- `Bucket::remove`: splice out the first node with an equal key and
decrement `len`; return with no change when the scan falls off the end. -/
def Bucket.remove (key : K) (b : Bucket K V) : Bucket K V :=
  if chainContains key b.chain then
    { chain := chainRemove key b.chain, len := b.len - 1 }
  else b

/-- `Bucket::get`. -/
def Bucket.get (key : K) (b : Bucket K V) : Option V :=
  chainGet key b.chain

/-- `Bucket { head: None, len: 0 }`. -/
def emptyBucket : Bucket K V := { chain := [], len := 0 }

/-- `HashTable::new`: `BUCKET_SIZE` empty buckets. -/
def HashTable.new (K V : Type) [DecidableEq K] : HashTable K V :=
  { buckets := List.replicate BUCKET_SIZE emptyBucket }

/-- `HashTable::hash`: hash the key with the (run-fixed, deterministic)
hasher, then reduce modulo `BUCKET_SIZE`. -/
def HashTable.hash (hash64 : K → Nat) (key : K) : Nat :=
  hash64 key % BUCKET_SIZE

/-- `self.buckets[index]`. -/
def HashTable.bucketAt (t : HashTable K V) (i : Nat) : Bucket K V :=
  t.buckets.getD i emptyBucket

/-- `HashTable::len`: the sum of all buckets' `len` fields. -/
def HashTable.len (t : HashTable K V) : Nat :=
  (t.buckets.map Bucket.len).sum

/-- `HashTable::insert`: hash the key and insert into that bucket. -/
def HashTable.insert (hash64 : K → Nat) (key : K) (value : V)
    (t : HashTable K V) : HashTable K V :=
  { buckets :=
      t.buckets.set (HashTable.hash hash64 key)
        (Bucket.insert key value (t.bucketAt (HashTable.hash hash64 key))) }

/-- `HashTable::remove`: hash the key and remove from that bucket. -/
def HashTable.remove (hash64 : K → Nat) (key : K)
    (t : HashTable K V) : HashTable K V :=
  { buckets :=
      t.buckets.set (HashTable.hash hash64 key)
        (Bucket.remove key (t.bucketAt (HashTable.hash hash64 key))) }

/-- `HashTable::get`: hash the key and look it up in that bucket. -/
def HashTable.get (hash64 : K → Nat) (key : K)
    (t : HashTable K V) : Option V :=
  Bucket.get key (t.bucketAt (HashTable.hash hash64 key))

/-- Is `key` present in the bucket its hash selects? -/
def HashTable.containsKey (hash64 : K → Nat) (key : K)
    (t : HashTable K V) : Bool :=
  chainContains key (t.bucketAt (HashTable.hash hash64 key)).chain

/-- The public operations of the table. -/
inductive Op (K V : Type) where
  | ins (key : K) (value : V)
  | rem (key : K)
  | query (key : K)

/-- One public call applied to a table state (`get` takes `&self` and
leaves the state unchanged). -/
def applyOp (hash64 : K → Nat) (t : HashTable K V) : Op K V → HashTable K V
  | .ins k v => HashTable.insert hash64 k v t
  | .rem k => HashTable.remove hash64 k t
  | .query _ => t

/-- Run a sequence of public calls from a given state. -/
def runFrom (hash64 : K → Nat) (t : HashTable K V) :
    List (Op K V) → HashTable K V
  | [] => t
  | op :: ops => runFrom hash64 (applyOp hash64 t op) ops

/-- Number of inserts in the sequence whose key was absent when they
ran (the new-node branch of `Bucket::insert`). -/
def countNew (hash64 : K → Nat) (t : HashTable K V) : List (Op K V) → Nat
  | [] => 0
  | op :: ops =>
    (match op with
     | .ins k _ => if HashTable.containsKey hash64 k t then 0 else 1
     | _ => 0) + countNew hash64 (applyOp hash64 t op) ops

/-- Number of removes in the sequence that found their key (the
splice branch of `Bucket::remove`). -/
def countHit (hash64 : K → Nat) (t : HashTable K V) : List (Op K V) → Nat
  | [] => 0
  | op :: ops =>
    (match op with
     | .rem k => if HashTable.containsKey hash64 k t then 1 else 0
     | _ => 0) + countHit hash64 (applyOp hash64 t op) ops

/-- Bucket invariant: the `len` field counts the nodes of the chain, and
the chain's keys are pairwise distinct. -/
def Bucket.Wf (b : Bucket K V) : Prop :=
  b.len = b.chain.length ∧ (b.chain.map Prod.fst).Nodup

/-- Table invariant: `BUCKET_SIZE` buckets, each well-formed. -/
def HashTable.Wf (t : HashTable K V) : Prop :=
  t.buckets.length = BUCKET_SIZE ∧ ∀ b ∈ t.buckets, b.Wf

instance (b : Bucket K V) : Decidable b.Wf := by
  unfold Bucket.Wf; infer_instance

instance (t : HashTable K V) : Decidable t.Wf := by
  unfold HashTable.Wf; infer_instance

/-! ### Chain-level lemmas -/

theorem chainContains_iff_mem_keys (key : K) (c : List (K × V)) :
    chainContains key c = true ↔ key ∈ c.map Prod.fst := by
  induction c with
  | nil => simp [chainContains]
  | cons hd tl ih =>
    obtain ⟨k, v⟩ := hd
    simp only [chainContains, List.map_cons, List.mem_cons]
    by_cases h : k = key
    · simp [h]
    · rw [if_neg h, ih]
      constructor
      · exact fun hm => Or.inr hm
      · rintro (hm | hm)
        · exact absurd hm.symm h
        · exact hm

theorem chainGet_eq_none_of_not_contains (key : K) (c : List (K × V))
    (h : chainContains key c = false) : chainGet key c = none := by
  induction c with
  | nil => rfl
  | cons hd tl ih =>
    obtain ⟨k, v⟩ := hd
    by_cases hk : k = key
    · simp [chainContains, hk] at h
    · simp only [chainContains, hk, if_false] at h
      simp [chainGet, hk, ih h]

theorem chainGet_chainOverwrite_self (key : K) (value : V) (c : List (K × V))
    (h : chainContains key c = true) :
    chainGet key (chainOverwrite key value c) = some value := by
  induction c with
  | nil => simp [chainContains] at h
  | cons hd tl ih =>
    obtain ⟨k, v⟩ := hd
    by_cases hk : k = key
    · simp [chainOverwrite, chainGet, hk]
    · simp only [chainContains, hk, if_false] at h
      simp [chainOverwrite, chainGet, hk, ih h]

theorem chainGet_chainOverwrite_ne (key key' : K) (value : V)
    (c : List (K × V)) (h : key' ≠ key) :
    chainGet key' (chainOverwrite key value c) = chainGet key' c := by
  induction c with
  | nil => rfl
  | cons hd tl ih =>
    obtain ⟨k, v⟩ := hd
    by_cases hk : k = key
    · subst hk
      have hne : k ≠ key' := Ne.symm h
      simp [chainOverwrite, chainGet, hne]
    · simp [chainOverwrite, chainGet, hk, ih]

theorem chainGet_chainRemove_ne (key key' : K) (c : List (K × V))
    (h : key' ≠ key) :
    chainGet key' (chainRemove key c) = chainGet key' c := by
  induction c with
  | nil => rfl
  | cons hd tl ih =>
    obtain ⟨k, v⟩ := hd
    by_cases hk : k = key
    · subst hk
      have hne : k ≠ key' := Ne.symm h
      simp [chainRemove, chainGet, hne]
    · simp [chainRemove, chainGet, hk, ih]

theorem keys_chainOverwrite (key : K) (value : V) (c : List (K × V)) :
    (chainOverwrite key value c).map Prod.fst = c.map Prod.fst := by
  induction c with
  | nil => rfl
  | cons hd tl ih =>
    obtain ⟨k, v⟩ := hd
    by_cases hk : k = key <;> simp [chainOverwrite, hk, ih]

theorem length_chainRemove_of_contains (key : K) (c : List (K × V))
    (h : chainContains key c = true) :
    (chainRemove key c).length + 1 = c.length := by
  induction c with
  | nil => simp [chainContains] at h
  | cons hd tl ih =>
    obtain ⟨k, v⟩ := hd
    by_cases hk : k = key
    · simp [chainRemove, hk]
    · simp only [chainContains, hk, if_false] at h
      simp [chainRemove, hk, ih h]

theorem chainRemove_of_not_contains (key : K) (c : List (K × V))
    (h : chainContains key c = false) : chainRemove key c = c := by
  induction c with
  | nil => rfl
  | cons hd tl ih =>
    obtain ⟨k, v⟩ := hd
    by_cases hk : k = key
    · simp [chainContains, hk] at h
    · simp only [chainContains, hk, if_false] at h
      simp [chainRemove, hk, ih h]

theorem keys_chainRemove_sublist (key : K) (c : List (K × V)) :
    ((chainRemove key c).map Prod.fst).Sublist (c.map Prod.fst) := by
  induction c with
  | nil => simp [chainRemove]
  | cons hd tl ih =>
    obtain ⟨k, v⟩ := hd
    by_cases hk : k = key
    · simp only [chainRemove, hk, if_pos rfl, List.map_cons]
      exact (List.sublist_cons_self _ _)
    · simpa [chainRemove, hk] using ih.cons₂ k

theorem nodup_keys_chainRemove (key : K) (c : List (K × V))
    (h : (c.map Prod.fst).Nodup) :
    ((chainRemove key c).map Prod.fst).Nodup :=
  (keys_chainRemove_sublist key c).nodup h

theorem chainGet_chainRemove_self (key : K) (c : List (K × V))
    (h : (c.map Prod.fst).Nodup) :
    chainGet key (chainRemove key c) = none := by
  induction c with
  | nil => rfl
  | cons hd tl ih =>
    obtain ⟨k, v⟩ := hd
    simp only [List.map_cons, List.nodup_cons] at h
    by_cases hk : k = key
    · subst hk
      simp only [chainRemove, if_pos rfl]
      apply chainGet_eq_none_of_not_contains
      by_contra hc
      exact h.1 ((chainContains_iff_mem_keys k tl).mp
        (Bool.of_not_eq_false hc))
    · simp [chainRemove, chainGet, hk, ih h.2]

theorem chainGet_eq_none_iff (key : K) (c : List (K × V)) :
    chainGet key c = none ↔ chainContains key c = false := by
  induction c with
  | nil => simp [chainGet, chainContains]
  | cons hd tl ih =>
    obtain ⟨k, v⟩ := hd
    by_cases hk : k = key <;> simp [chainGet, chainContains, hk, ih]

/-! ### Generic list helpers for `Vec` indexing -/

theorem getD_set_self {α : Type} (l : List α) (i : Nat) (b d : α)
    (h : i < l.length) : (l.set i b).getD i d = b := by
  induction l generalizing i with
  | nil => simp at h
  | cons hd tl ih =>
    cases i with
    | zero => rfl
    | succ n =>
      simp only [List.length_cons, Nat.succ_lt_succ_iff] at h
      simpa [List.set, List.getD] using ih n h

theorem getD_set_ne {α : Type} (l : List α) (i j : Nat) (b d : α)
    (h : i ≠ j) : (l.set i b).getD j d = l.getD j d := by
  induction l generalizing i j with
  | nil => simp
  | cons hd tl ih =>
    cases i with
    | zero =>
      cases j with
      | zero => exact absurd rfl h
      | succ m => rfl
    | succ n =>
      cases j with
      | zero => rfl
      | succ m =>
        simpa [List.set, List.getD] using
          ih n m (fun hnm => h (by rw [hnm]))

theorem set_getD_self {α : Type} (l : List α) (i : Nat) (d : α) :
    l.set i (l.getD i d) = l := by
  induction l generalizing i with
  | nil => rfl
  | cons hd tl ih =>
    cases i with
    | zero => rfl
    | succ n => simpa [List.set, List.getD] using ih n

theorem sum_map_set {α : Type} (l : List α) (i : Nat) (b d : α)
    (f : α → Nat) (h : i < l.length) :
    ((l.set i b).map f).sum + f (l.getD i d) = (l.map f).sum + f b := by
  induction l generalizing i with
  | nil => simp at h
  | cons hd tl ih =>
    cases i with
    | zero => simp [List.set, List.getD]; omega
    | succ n =>
      simp only [List.length_cons, Nat.succ_lt_succ_iff] at h
      have := ih n h
      simp only [List.set, List.getD_cons_succ, List.map_cons,
        List.sum_cons] at this ⊢
      omega

theorem mem_of_mem_set {α : Type} (l : List α) (i : Nat) (b x : α)
    (h : x ∈ l.set i b) : x = b ∨ x ∈ l := by
  induction l generalizing i with
  | nil => simp at h
  | cons hd tl ih =>
    cases i with
    | zero =>
      rcases List.mem_cons.mp h with h | h
      · exact Or.inl h
      · exact Or.inr (List.mem_cons_of_mem _ h)
    | succ n =>
      rcases List.mem_cons.mp h with h | h
      · exact Or.inr (h ▸ List.mem_cons_self _ _)
      · rcases ih n h with h | h
        · exact Or.inl h
        · exact Or.inr (List.mem_cons_of_mem _ h)

theorem getD_mem_of_lt {α : Type} (l : List α) (i : Nat) (d : α)
    (h : i < l.length) : l.getD i d ∈ l := by
  induction l generalizing i with
  | nil => simp at h
  | cons hd tl ih =>
    cases i with
    | zero => exact List.mem_cons_self _ _
    | succ n =>
      simp only [List.length_cons, Nat.succ_lt_succ_iff] at h
      exact List.mem_cons_of_mem _ (ih n h)

theorem getD_of_length_le {α : Type} (l : List α) (i : Nat) (d : α)
    (h : l.length ≤ i) : l.getD i d = d := by
  induction l generalizing i with
  | nil => rfl
  | cons hd tl ih =>
    cases i with
    | zero => simp at h
    | succ n =>
      simp only [List.length_cons, Nat.succ_le_succ_iff] at h
      simpa [List.getD_cons_succ] using ih n h

/-! ### Bucket-level lemmas -/

theorem chain_length_pos_of_contains (key : K) (c : List (K × V))
    (h : chainContains key c = true) : 1 ≤ c.length := by
  cases c with
  | nil => simp [chainContains] at h
  | cons hd tl => simp

theorem bucket_get_insert_self (key : K) (value : V) (b : Bucket K V) :
    Bucket.get key (Bucket.insert key value b) = some value := by
  unfold Bucket.insert Bucket.get
  by_cases h : chainContains key b.chain
  · simp [h, chainGet_chainOverwrite_self key value b.chain h]
  · simp [h, chainGet]

theorem bucket_get_insert_ne (key key' : K) (value : V) (b : Bucket K V)
    (h : key' ≠ key) :
    Bucket.get key' (Bucket.insert key value b) = Bucket.get key' b := by
  unfold Bucket.insert Bucket.get
  by_cases hc : chainContains key b.chain
  · simp [hc, chainGet_chainOverwrite_ne key key' value b.chain h]
  · simp [hc, chainGet, Ne.symm h]

theorem bucket_get_remove_ne (key key' : K) (b : Bucket K V)
    (h : key' ≠ key) :
    Bucket.get key' (Bucket.remove key b) = Bucket.get key' b := by
  unfold Bucket.remove Bucket.get
  by_cases hc : chainContains key b.chain
  · simp [hc, chainGet_chainRemove_ne key key' b.chain h]
  · simp [hc]

theorem bucket_get_remove_self (key : K) (b : Bucket K V)
    (h : (b.chain.map Prod.fst).Nodup) :
    Bucket.get key (Bucket.remove key b) = none := by
  unfold Bucket.remove Bucket.get
  by_cases hc : chainContains key b.chain
  · simp [hc, chainGet_chainRemove_self key b.chain h]
  · simp [hc, chainGet_eq_none_of_not_contains key b.chain
      (Bool.eq_false_iff.mpr hc)]

theorem bucket_len_insert (key : K) (value : V) (b : Bucket K V) :
    (Bucket.insert key value b).len =
      b.len + (if chainContains key b.chain then 0 else 1) := by
  unfold Bucket.insert
  by_cases h : chainContains key b.chain <;> simp [h]

theorem bucket_len_remove (key : K) (b : Bucket K V) (hwf : b.Wf)
    (h : chainContains key b.chain = true) :
    (Bucket.remove key b).len + 1 = b.len := by
  unfold Bucket.remove
  rw [if_pos h]
  have h1 := chain_length_pos_of_contains key b.chain h
  have h2 := hwf.1
  show b.len - 1 + 1 = b.len
  omega

theorem bucket_remove_of_not_contains (key : K) (b : Bucket K V)
    (h : chainContains key b.chain = false) :
    Bucket.remove key b = b := by
  unfold Bucket.remove
  rw [if_neg (by simp [h])]

theorem bucket_wf_insert (key : K) (value : V) (b : Bucket K V)
    (hwf : b.Wf) : (Bucket.insert key value b).Wf := by
  obtain ⟨hlen, hnd⟩ := hwf
  unfold Bucket.insert
  by_cases h : chainContains key b.chain
  · rw [if_pos h]
    refine ⟨?_, ?_⟩
    · show b.len = (chainOverwrite key value b.chain).length
      calc b.len = b.chain.length := hlen
        _ = (b.chain.map Prod.fst).length := by simp
        _ = ((chainOverwrite key value b.chain).map Prod.fst).length := by
            rw [keys_chainOverwrite]
        _ = (chainOverwrite key value b.chain).length := by simp
    · show ((chainOverwrite key value b.chain).map Prod.fst).Nodup
      simpa [keys_chainOverwrite] using hnd
  · rw [if_neg h]
    refine ⟨?_, ?_⟩
    · show b.len + 1 = ((key, value) :: b.chain).length
      simp [hlen]
    · have hmem : key ∉ b.chain.map Prod.fst := fun hm =>
        (Bool.eq_false_iff.mp (Bool.of_not_eq_true h))
          ((chainContains_iff_mem_keys key b.chain).mpr hm)
      show (((key, value) :: b.chain).map Prod.fst).Nodup
      simp [List.nodup_cons, hmem, hnd]

theorem bucket_wf_remove (key : K) (b : Bucket K V)
    (hwf : b.Wf) : (Bucket.remove key b).Wf := by
  obtain ⟨hlen, hnd⟩ := hwf
  unfold Bucket.remove
  by_cases h : chainContains key b.chain
  · refine ⟨?_, ?_⟩
    · have h1 := length_chainRemove_of_contains key b.chain h
      simp only [h, if_pos]
      omega
    · simpa [h] using nodup_keys_chainRemove key b.chain hnd
  · simpa [h] using ⟨hlen, hnd⟩

/-! ### Table-level lemmas -/

theorem hash_lt_bucket_size (hash64 : K → Nat) (key : K) :
    HashTable.hash hash64 key < BUCKET_SIZE :=
  Nat.mod_lt _ (by decide)

theorem table_get_insert_self (hash64 : K → Nat) (key : K) (value : V)
    (t : HashTable K V) (h : t.buckets.length = BUCKET_SIZE) :
    HashTable.get hash64 key (HashTable.insert hash64 key value t) =
      some value := by
  unfold HashTable.get HashTable.insert HashTable.bucketAt
  rw [getD_set_self]
  · exact bucket_get_insert_self key value _
  · rw [h]; exact hash_lt_bucket_size hash64 key

theorem table_get_insert_ne (hash64 : K → Nat) (key key' : K) (value : V)
    (t : HashTable K V) (h : key' ≠ key) :
    HashTable.get hash64 key' (HashTable.insert hash64 key value t) =
      HashTable.get hash64 key' t := by
  unfold HashTable.get HashTable.insert HashTable.bucketAt
  by_cases hij : HashTable.hash hash64 key = HashTable.hash hash64 key'
  · rw [← hij]
    by_cases hlt : HashTable.hash hash64 key < t.buckets.length
    · rw [getD_set_self _ _ _ _ hlt]
      exact bucket_get_insert_ne key key' value _ h
    · rw [getD_of_length_le _ _ _ (by simpa using Nat.le_of_not_lt hlt),
        getD_of_length_le _ _ _ (Nat.le_of_not_lt hlt)]
  · rw [getD_set_ne _ _ _ _ _ hij]

theorem table_get_remove_ne (hash64 : K → Nat) (key key' : K)
    (t : HashTable K V) (h : key' ≠ key) :
    HashTable.get hash64 key' (HashTable.remove hash64 key t) =
      HashTable.get hash64 key' t := by
  unfold HashTable.get HashTable.remove HashTable.bucketAt
  by_cases hij : HashTable.hash hash64 key = HashTable.hash hash64 key'
  · rw [← hij]
    by_cases hlt : HashTable.hash hash64 key < t.buckets.length
    · rw [getD_set_self _ _ _ _ hlt]
      exact bucket_get_remove_ne key key' _ h
    · rw [getD_of_length_le _ _ _ (by simpa using Nat.le_of_not_lt hlt),
        getD_of_length_le _ _ _ (Nat.le_of_not_lt hlt)]
  · rw [getD_set_ne _ _ _ _ _ hij]

theorem table_get_remove_self (hash64 : K → Nat) (key : K)
    (t : HashTable K V) (h : t.Wf) :
    HashTable.get hash64 key (HashTable.remove hash64 key t) = none := by
  obtain ⟨hlen, hwf⟩ := h
  unfold HashTable.get HashTable.remove HashTable.bucketAt
  have hlt : HashTable.hash hash64 key < t.buckets.length := by
    rw [hlen]; exact hash_lt_bucket_size hash64 key
  rw [getD_set_self _ _ _ _ hlt]
  exact bucket_get_remove_self key _
    (hwf _ (getD_mem_of_lt _ _ _ hlt)).2

theorem table_get_eq_none_iff (hash64 : K → Nat) (key : K)
    (t : HashTable K V) :
    HashTable.get hash64 key t = none ↔
      HashTable.containsKey hash64 key t = false := by
  unfold HashTable.get HashTable.containsKey Bucket.get
  exact chainGet_eq_none_iff key _

theorem table_len_insert (hash64 : K → Nat) (key : K) (value : V)
    (t : HashTable K V) (h : t.buckets.length = BUCKET_SIZE) :
    (HashTable.insert hash64 key value t).len =
      t.len + (if HashTable.containsKey hash64 key t then 0 else 1) := by
  unfold HashTable.insert HashTable.len HashTable.containsKey
    HashTable.bucketAt
  have hlt : HashTable.hash hash64 key < t.buckets.length := by
    rw [h]; exact hash_lt_bucket_size hash64 key
  have hsum := sum_map_set t.buckets (HashTable.hash hash64 key)
    (Bucket.insert key value
      (t.buckets.getD (HashTable.hash hash64 key) emptyBucket))
    emptyBucket Bucket.len hlt
  have hb := bucket_len_insert key value
    (t.buckets.getD (HashTable.hash hash64 key) emptyBucket)
  by_cases hc : chainContains key
      (t.buckets.getD (HashTable.hash hash64 key) emptyBucket).chain <;>
    simp only [hc, if_true, if_false] at hb ⊢ <;> omega

theorem table_len_remove (hash64 : K → Nat) (key : K)
    (t : HashTable K V) (h : t.Wf) :
    (HashTable.remove hash64 key t).len +
      (if HashTable.containsKey hash64 key t then 1 else 0) = t.len := by
  obtain ⟨hlen, hwf⟩ := h
  unfold HashTable.remove HashTable.len HashTable.containsKey
    HashTable.bucketAt
  have hlt : HashTable.hash hash64 key < t.buckets.length := by
    rw [hlen]; exact hash_lt_bucket_size hash64 key
  have hsum := sum_map_set t.buckets (HashTable.hash hash64 key)
    (Bucket.remove key
      (t.buckets.getD (HashTable.hash hash64 key) emptyBucket))
    emptyBucket Bucket.len hlt
  by_cases hc : chainContains key
      (t.buckets.getD (HashTable.hash hash64 key) emptyBucket).chain
  · have hb := bucket_len_remove key
      (t.buckets.getD (HashTable.hash hash64 key) emptyBucket)
      (hwf _ (getD_mem_of_lt _ _ _ hlt)) hc
    simp only [hc, if_true]
    omega
  · have hb := bucket_remove_of_not_contains key
      (t.buckets.getD (HashTable.hash hash64 key) emptyBucket)
      (Bool.eq_false_iff.mpr hc)
    rw [hb, set_getD_self, if_neg hc, Nat.add_zero]

theorem table_remove_of_not_contains (hash64 : K → Nat) (key : K)
    (t : HashTable K V)
    (h : HashTable.containsKey hash64 key t = false) :
    HashTable.remove hash64 key t = t := by
  unfold HashTable.containsKey HashTable.bucketAt at h
  unfold HashTable.remove HashTable.bucketAt
  rw [bucket_remove_of_not_contains key _ h]
  cases t with
  | mk l => simp only [HashTable.mk.injEq]; exact set_getD_self l _ _

theorem table_wf_insert (hash64 : K → Nat) (key : K) (value : V)
    (t : HashTable K V) (h : t.Wf) :
    (HashTable.insert hash64 key value t).Wf := by
  obtain ⟨hlen, hwf⟩ := h
  refine ⟨by simpa [HashTable.insert] using hlen, ?_⟩
  intro b hb
  unfold HashTable.insert HashTable.bucketAt at hb
  rcases mem_of_mem_set _ _ _ _ hb with hb | hb
  · subst hb
    have hlt : HashTable.hash hash64 key < t.buckets.length := by
      rw [hlen]; exact hash_lt_bucket_size hash64 key
    exact bucket_wf_insert key value _ (hwf _ (getD_mem_of_lt _ _ _ hlt))
  · exact hwf _ hb

theorem table_wf_remove (hash64 : K → Nat) (key : K)
    (t : HashTable K V) (h : t.Wf) :
    (HashTable.remove hash64 key t).Wf := by
  obtain ⟨hlen, hwf⟩ := h
  refine ⟨by simpa [HashTable.remove] using hlen, ?_⟩
  intro b hb
  unfold HashTable.remove HashTable.bucketAt at hb
  rcases mem_of_mem_set _ _ _ _ hb with hb | hb
  · subst hb
    have hlt : HashTable.hash hash64 key < t.buckets.length := by
      rw [hlen]; exact hash_lt_bucket_size hash64 key
    exact bucket_wf_remove key _ (hwf _ (getD_mem_of_lt _ _ _ hlt))
  · exact hwf _ hb

theorem table_wf_new : (HashTable.new K V).Wf := by
  refine ⟨by simp [HashTable.new], ?_⟩
  intro b hb
  unfold HashTable.new at hb
  have := List.eq_of_mem_replicate hb
  subst this
  exact ⟨rfl, List.nodup_nil⟩

theorem table_wf_applyOp (hash64 : K → Nat) (t : HashTable K V)
    (op : Op K V) (h : t.Wf) : (applyOp hash64 t op).Wf := by
  cases op with
  | ins k v => exact table_wf_insert hash64 k v t h
  | rem k => exact table_wf_remove hash64 k t h
  | query k => exact h

theorem table_wf_runFrom (hash64 : K → Nat) (ops : List (Op K V))
    (t : HashTable K V) (h : t.Wf) : (runFrom hash64 t ops).Wf := by
  induction ops generalizing t with
  | nil => exact h
  | cons op ops ih => exact ih _ (table_wf_applyOp hash64 t op h)

theorem table_contains_insert_self (hash64 : K → Nat) (key : K) (value : V)
    (t : HashTable K V) (h : t.buckets.length = BUCKET_SIZE) :
    HashTable.containsKey hash64 key
      (HashTable.insert hash64 key value t) = true := by
  by_contra hc
  have hnone := (table_get_eq_none_iff hash64 key
    (HashTable.insert hash64 key value t)).mpr
    (Bool.eq_false_iff.mpr hc)
  rw [table_get_insert_self hash64 key value t h] at hnone
  exact Option.noConfusion hnone

theorem map_set_eq_of_eq {α β : Type} (l : List α) (i : Nat) (b d : α)
    (f : α → β) (h : f b = f (l.getD i d)) :
    (l.set i b).map f = l.map f := by
  induction l generalizing i with
  | nil => rfl
  | cons hd tl ih =>
    cases i with
    | zero => simpa [List.set] using h
    | succ n =>
      simp only [List.getD_cons_succ] at h
      simpa [List.set] using ih n h

/-- The keys of every bucket chain, in chain order. -/
def tableKeys (t : HashTable K V) : List (List K) :=
  t.buckets.map (fun b => b.chain.map Prod.fst)

theorem tableKeys_insert_of_contains (hash64 : K → Nat) (key : K)
    (value : V) (t : HashTable K V)
    (h : HashTable.containsKey hash64 key t = true) :
    tableKeys (HashTable.insert hash64 key value t) = tableKeys t := by
  unfold HashTable.containsKey HashTable.bucketAt at h
  unfold tableKeys HashTable.insert HashTable.bucketAt
  apply map_set_eq_of_eq _ _ _ emptyBucket
  unfold Bucket.insert
  rw [if_pos h]
  exact keys_chainOverwrite key value _

theorem len_runFrom (hash64 : K → Nat) (ops : List (Op K V)) :
    ∀ t : HashTable K V, t.Wf →
      (runFrom hash64 t ops).len + countHit hash64 t ops =
        t.len + countNew hash64 t ops := by
  induction ops with
  | nil => intro t _; simp [runFrom, countHit, countNew]
  | cons op ops ih =>
    intro t ht
    cases op with
    | ins k v =>
      have h1 := table_len_insert hash64 k v t ht.1
      have h2 := ih _ (table_wf_insert hash64 k v t ht)
      simp only [runFrom, countHit, countNew, applyOp] at h2 ⊢
      by_cases hc : HashTable.containsKey hash64 k t <;>
        simp only [hc, if_true, if_false] at h1 ⊢ <;> omega
    | rem k =>
      have h1 := table_len_remove hash64 k t ht
      have h2 := ih _ (table_wf_remove hash64 k t ht)
      simp only [runFrom, countHit, countNew, applyOp] at h2 ⊢
      by_cases hc : HashTable.containsKey hash64 k t <;>
        simp only [hc, if_true, if_false] at h1 ⊢ <;> omega
    | query k =>
      have h2 := ih t ht
      simp only [runFrom, countHit, countNew, applyOp] at h2 ⊢
      omega

theorem table_len_eq_node_count (t : HashTable K V) (h : t.Wf) :
    t.len = (t.buckets.map (fun b => b.chain.length)).sum := by
  unfold HashTable.len
  congr 1
  exact List.map_congr_left (fun b hb => (h.2 b hb).1)

/-! ### The claims -/

/-- C1: for every key K and value V and every table state, calling
`insert(K, V)` and then `get(K)` on the resulting table returns
`Some(V)`. -/
theorem C1_insert_get_round_trip (hash64 : K → Nat) (key : K) (value : V)
    (t : HashTable K V) (hlen : t.buckets.length = BUCKET_SIZE) :
    HashTable.get hash64 key (HashTable.insert hash64 key value t) =
      some value :=
  table_get_insert_self hash64 key value t hlen

theorem C1_witness :
    (HashTable.new Nat Nat).buckets.length = BUCKET_SIZE ∧
    HashTable.get id 3
      (HashTable.insert id 3 7 (HashTable.new Nat Nat)) = some 7 :=
  ⟨by decide, C1_insert_get_round_trip id 3 7 (HashTable.new Nat Nat)
    (by decide)⟩

/-- C2: inserting (K, V1) and then (K, V2) into a table where K was
absent leaves `len` greater by exactly 1 (not 2), `get(K)` returns
`Some(V2)`, and the duplicate insert overwrites the value in place
leaving every chain's key sequence (hence node positions) untouched. -/
theorem C2_update_not_duplicate (hash64 : K → Nat) (key : K) (v1 v2 : V)
    (t : HashTable K V) (hlen : t.buckets.length = BUCKET_SIZE)
    (habs : HashTable.get hash64 key t = none) :
    (HashTable.insert hash64 key v2
        (HashTable.insert hash64 key v1 t)).len = t.len + 1 ∧
    HashTable.get hash64 key
      (HashTable.insert hash64 key v2
        (HashTable.insert hash64 key v1 t)) = some v2 ∧
    tableKeys (HashTable.insert hash64 key v2
        (HashTable.insert hash64 key v1 t)) =
      tableKeys (HashTable.insert hash64 key v1 t) := by
  have hc0 : HashTable.containsKey hash64 key t = false :=
    (table_get_eq_none_iff hash64 key t).mp habs
  have hlen1 : (HashTable.insert hash64 key v1 t).buckets.length =
      BUCKET_SIZE := by
    simpa [HashTable.insert] using hlen
  have hc1 := table_contains_insert_self hash64 key v1 t hlen
  refine ⟨?_, ?_, ?_⟩
  · rw [table_len_insert hash64 key v2 _ hlen1,
      table_len_insert hash64 key v1 t hlen, hc0, hc1]
    simp
  · exact table_get_insert_self hash64 key v2 _ hlen1
  · exact tableKeys_insert_of_contains hash64 key v2 _ hc1

theorem C2_witness :
    ((HashTable.new Nat Nat).buckets.length = BUCKET_SIZE ∧
      HashTable.get id 3 (HashTable.new Nat Nat) = none) ∧
    (HashTable.insert id 3 9
        (HashTable.insert id 3 7 (HashTable.new Nat Nat))).len =
      (HashTable.new Nat Nat).len + 1 ∧
    HashTable.get id 3
      (HashTable.insert id 3 9
        (HashTable.insert id 3 7 (HashTable.new Nat Nat))) = some 9 ∧
    tableKeys (HashTable.insert id 3 9
        (HashTable.insert id 3 7 (HashTable.new Nat Nat))) =
      tableKeys (HashTable.insert id 3 7 (HashTable.new Nat Nat)) :=
  ⟨⟨by decide, by decide⟩,
    C2_update_not_duplicate id 3 7 9 (HashTable.new Nat Nat)
      (by decide) (by decide)⟩

/-- C3: for every key K present in a well-formed table, `remove(K)`
makes a subsequent `get(K)` return `None` and decreases `len` by
exactly 1. -/
theorem C3_remove_present (hash64 : K → Nat) (key : K)
    (t : HashTable K V) (hwf : t.Wf)
    (hmem : HashTable.containsKey hash64 key t = true) :
    HashTable.get hash64 key (HashTable.remove hash64 key t) = none ∧
    (HashTable.remove hash64 key t).len + 1 = t.len := by
  refine ⟨table_get_remove_self hash64 key t hwf, ?_⟩
  have hacc := table_len_remove hash64 key t hwf
  rw [hmem] at hacc
  simpa using hacc

theorem C3_witness :
    ((HashTable.insert id 3 7 (HashTable.new Nat Nat)).Wf ∧
      HashTable.containsKey id 3
        (HashTable.insert id 3 7 (HashTable.new Nat Nat)) = true) ∧
    HashTable.get id 3
      (HashTable.remove id 3
        (HashTable.insert id 3 7 (HashTable.new Nat Nat))) = none ∧
    (HashTable.remove id 3
        (HashTable.insert id 3 7 (HashTable.new Nat Nat))).len + 1 =
      (HashTable.insert id 3 7 (HashTable.new Nat Nat)).len :=
  ⟨⟨by decide, by decide⟩,
    C3_remove_present id 3 (HashTable.insert id 3 7 (HashTable.new Nat Nat))
      (by decide) (by decide)⟩

/-- C4: for every key K not present in the table, `remove(K)` is a
silent no-op: the table is unchanged, so `len` and every other entry
are unchanged. -/
theorem C4_remove_absent_noop (hash64 : K → Nat) (key : K)
    (t : HashTable K V)
    (habs : HashTable.containsKey hash64 key t = false) :
    HashTable.remove hash64 key t = t ∧
    (HashTable.remove hash64 key t).len = t.len ∧
    ∀ key', HashTable.get hash64 key' (HashTable.remove hash64 key t) =
      HashTable.get hash64 key' t := by
  have heq := table_remove_of_not_contains hash64 key t habs
  exact ⟨heq, by rw [heq], fun key' => by rw [heq]⟩

theorem C4_witness :
    HashTable.containsKey id 5
        (HashTable.insert id 3 7 (HashTable.new Nat Nat)) = false ∧
    HashTable.remove id 5
        (HashTable.insert id 3 7 (HashTable.new Nat Nat)) =
      HashTable.insert id 3 7 (HashTable.new Nat Nat) ∧
    (HashTable.remove id 5
        (HashTable.insert id 3 7 (HashTable.new Nat Nat))).len =
      (HashTable.insert id 3 7 (HashTable.new Nat Nat)).len ∧
    ∀ key', HashTable.get id key'
        (HashTable.remove id 5
          (HashTable.insert id 3 7 (HashTable.new Nat Nat))) =
      HashTable.get id key'
        (HashTable.insert id 3 7 (HashTable.new Nat Nat)) :=
  ⟨by decide,
    C4_remove_absent_noop id 5
      (HashTable.insert id 3 7 (HashTable.new Nat Nat)) (by decide)⟩

/-- C5: in every state reachable from `new()` by insert/remove/get
calls, `len()` equals the sum of the buckets' `len` fields, which
equals the number of nodes reachable from all bucket heads, and it
equals the number of new-key inserts performed minus the number of
removes that found their key. -/
theorem C5_len_accounting (hash64 : K → Nat) (ops : List (Op K V)) :
    (runFrom hash64 (HashTable.new K V) ops).len =
      ((runFrom hash64 (HashTable.new K V) ops).buckets.map
        Bucket.len).sum ∧
    (runFrom hash64 (HashTable.new K V) ops).len =
      ((runFrom hash64 (HashTable.new K V) ops).buckets.map
        (fun b => b.chain.length)).sum ∧
    (runFrom hash64 (HashTable.new K V) ops).len +
        countHit hash64 (HashTable.new K V) ops =
      countNew hash64 (HashTable.new K V) ops ∧
    (runFrom hash64 (HashTable.new K V) ops).len =
      countNew hash64 (HashTable.new K V) ops -
        countHit hash64 (HashTable.new K V) ops := by
  have hwf := table_wf_runFrom hash64 ops (HashTable.new K V) table_wf_new
  have hacc := len_runFrom hash64 ops (HashTable.new K V) table_wf_new
  have hnew : (HashTable.new K V).len = 0 := by
    simp [HashTable.new, HashTable.len, emptyBucket]
  refine ⟨rfl, table_len_eq_node_count _ hwf, ?_, ?_⟩ <;> omega

/-- C6: in every state reachable from `new()` by insert/remove/get
calls, the keys within each single bucket's chain are pairwise
distinct. -/
theorem C6_bucket_keys_distinct (hash64 : K → Nat) (ops : List (Op K V))
    (b : Bucket K V)
    (hb : b ∈ (runFrom hash64 (HashTable.new K V) ops).buckets) :
    (b.chain.map Prod.fst).Nodup :=
  ((table_wf_runFrom hash64 ops (HashTable.new K V) table_wf_new).2 b hb).2

theorem C6_witness :
    (Bucket.mk [(11, 9), (3, 7)] 2 : Bucket Nat Nat) ∈
      (runFrom id (HashTable.new Nat Nat)
        [Op.ins 3 7, Op.ins 11 9]).buckets ∧
    (((Bucket.mk [(11, 9), (3, 7)] 2 : Bucket Nat Nat)).chain.map
      Prod.fst).Nodup :=
  ⟨by decide,
    C6_bucket_keys_distinct id [Op.ins 3 7, Op.ins 11 9]
      (Bucket.mk [(11, 9), (3, 7)] 2) (by decide)⟩

/-- C7: the private hash function always returns a value strictly less
than `BUCKET_SIZE` (= 8), returns the same value for equal keys within
one run (one fixed hasher), and the resulting bucket index is in bounds
for any table with `BUCKET_SIZE` buckets. -/
theorem C7_hash_bounds (hash64 : K → Nat) (key key' : K)
    (t : HashTable K V) (hlen : t.buckets.length = BUCKET_SIZE)
    (heq : key = key') :
    HashTable.hash hash64 key < BUCKET_SIZE ∧
    HashTable.hash hash64 key = HashTable.hash hash64 key' ∧
    HashTable.hash hash64 key < t.buckets.length :=
  ⟨hash_lt_bucket_size hash64 key, by rw [heq],
    by rw [hlen]; exact hash_lt_bucket_size hash64 key⟩

theorem C7_witness :
    ((HashTable.new Nat Nat).buckets.length = BUCKET_SIZE ∧
      (37 : Nat) = 37) ∧
    HashTable.hash id 37 < BUCKET_SIZE ∧
    HashTable.hash id 37 = HashTable.hash id 37 ∧
    HashTable.hash id 37 < (HashTable.new Nat Nat).buckets.length :=
  ⟨⟨by decide, rfl⟩,
    C7_hash_bounds id 37 37 (HashTable.new Nat Nat) (by decide) rfl⟩

/-- C8: for distinct keys K1 ≠ K2 hashing to the same bucket index,
after inserting both each is retrievable with its own value, and
removing either one leaves the other still retrievable. -/
theorem C8_collision_independence (hash64 : K → Nat) (k1 k2 : K)
    (v1 v2 : V) (t : HashTable K V)
    (hlen : t.buckets.length = BUCKET_SIZE) (hne : k1 ≠ k2)
    (hcol : HashTable.hash hash64 k1 = HashTable.hash hash64 k2) :
    HashTable.get hash64 k1
      (HashTable.insert hash64 k2 v2
        (HashTable.insert hash64 k1 v1 t)) = some v1 ∧
    HashTable.get hash64 k2
      (HashTable.insert hash64 k2 v2
        (HashTable.insert hash64 k1 v1 t)) = some v2 ∧
    HashTable.get hash64 k2
      (HashTable.remove hash64 k1
        (HashTable.insert hash64 k2 v2
          (HashTable.insert hash64 k1 v1 t))) = some v2 ∧
    HashTable.get hash64 k1
      (HashTable.remove hash64 k2
        (HashTable.insert hash64 k2 v2
          (HashTable.insert hash64 k1 v1 t))) = some v1 := by
  have hlen1 : (HashTable.insert hash64 k1 v1 t).buckets.length =
      BUCKET_SIZE := by
    simpa [HashTable.insert] using hlen
  have hg1 : HashTable.get hash64 k1
      (HashTable.insert hash64 k2 v2
        (HashTable.insert hash64 k1 v1 t)) = some v1 := by
    rw [table_get_insert_ne hash64 k2 k1 v2 _ hne]
    exact table_get_insert_self hash64 k1 v1 t hlen
  have hg2 : HashTable.get hash64 k2
      (HashTable.insert hash64 k2 v2
        (HashTable.insert hash64 k1 v1 t)) = some v2 :=
    table_get_insert_self hash64 k2 v2 _ hlen1
  refine ⟨hg1, hg2, ?_, ?_⟩
  · rw [table_get_remove_ne hash64 k1 k2 _ (Ne.symm hne)]
    exact hg2
  · rw [table_get_remove_ne hash64 k2 k1 _ hne]
    exact hg1

theorem C8_witness :
    ((HashTable.new Nat Nat).buckets.length = BUCKET_SIZE ∧
      (3 : Nat) ≠ 11 ∧ HashTable.hash id 3 = HashTable.hash id 11) ∧
    HashTable.get id 3
      (HashTable.insert id 11 9
        (HashTable.insert id 3 7 (HashTable.new Nat Nat))) = some 7 ∧
    HashTable.get id 11
      (HashTable.insert id 11 9
        (HashTable.insert id 3 7 (HashTable.new Nat Nat))) = some 9 ∧
    HashTable.get id 11
      (HashTable.remove id 3
        (HashTable.insert id 11 9
          (HashTable.insert id 3 7 (HashTable.new Nat Nat)))) = some 9 ∧
    HashTable.get id 3
      (HashTable.remove id 11
        (HashTable.insert id 11 9
          (HashTable.insert id 3 7 (HashTable.new Nat Nat)))) = some 7 :=
  ⟨⟨by decide, by decide, by decide⟩,
    C8_collision_independence id 3 11 7 9 (HashTable.new Nat Nat)
      (by decide) (by decide) (by decide)⟩

/-- C9: for a key absent from its bucket's chain, `insert(K, V)`
creates exactly one new node holding (K, V) linked in as the new head
of that chain (prepending), and that bucket's `len` increments by 1. -/
theorem C9_new_key_prepends (hash64 : K → Nat) (key : K) (value : V)
    (t : HashTable K V) (hlen : t.buckets.length = BUCKET_SIZE)
    (habs : chainContains key
      (HashTable.bucketAt t (HashTable.hash hash64 key)).chain = false) :
    (HashTable.bucketAt (HashTable.insert hash64 key value t)
        (HashTable.hash hash64 key)).chain =
      (key, value) ::
        (HashTable.bucketAt t (HashTable.hash hash64 key)).chain ∧
    (HashTable.bucketAt (HashTable.insert hash64 key value t)
        (HashTable.hash hash64 key)).len =
      (HashTable.bucketAt t (HashTable.hash hash64 key)).len + 1 := by
  have hlt : HashTable.hash hash64 key < t.buckets.length := by
    rw [hlen]; exact hash_lt_bucket_size hash64 key
  unfold HashTable.bucketAt at habs
  unfold HashTable.insert HashTable.bucketAt
  rw [getD_set_self _ _ _ _ hlt]
  unfold Bucket.insert
  rw [if_neg (Bool.eq_false_iff.mp habs)]
  exact ⟨rfl, rfl⟩

theorem C9_witness :
    ((HashTable.insert id 3 7 (HashTable.new Nat Nat)).buckets.length =
        BUCKET_SIZE ∧
      chainContains 11
        (HashTable.bucketAt (HashTable.insert id 3 7 (HashTable.new Nat Nat))
          (HashTable.hash id 11)).chain = false) ∧
    (HashTable.bucketAt
        (HashTable.insert id 11 9
          (HashTable.insert id 3 7 (HashTable.new Nat Nat)))
        (HashTable.hash id 11)).chain =
      (11, 9) ::
        (HashTable.bucketAt (HashTable.insert id 3 7 (HashTable.new Nat Nat))
          (HashTable.hash id 11)).chain ∧
    (HashTable.bucketAt
        (HashTable.insert id 11 9
          (HashTable.insert id 3 7 (HashTable.new Nat Nat)))
        (HashTable.hash id 11)).len =
      (HashTable.bucketAt (HashTable.insert id 3 7 (HashTable.new Nat Nat))
        (HashTable.hash id 11)).len + 1 :=
  ⟨⟨by decide, by decide⟩,
    C9_new_key_prepends id 11 9
      (HashTable.insert id 3 7 (HashTable.new Nat Nat))
      (by decide) (by decide)⟩

/-- C10: for any table state and distinct keys K ≠ K', `insert(K, V)`
and `remove(K)` leave the result of `get(K')` unchanged. -/
theorem C10_other_keys_unchanged (hash64 : K → Nat) (key key' : K)
    (value : V) (t : HashTable K V) (hne : key ≠ key') :
    HashTable.get hash64 key'
        (HashTable.insert hash64 key value t) =
      HashTable.get hash64 key' t ∧
    HashTable.get hash64 key' (HashTable.remove hash64 key t) =
      HashTable.get hash64 key' t :=
  ⟨table_get_insert_ne hash64 key key' value t (Ne.symm hne),
    table_get_remove_ne hash64 key key' t (Ne.symm hne)⟩

theorem C10_witness :
    (3 : Nat) ≠ 11 ∧
    HashTable.get id 11
        (HashTable.insert id 3 7
          (HashTable.insert id 11 9 (HashTable.new Nat Nat))) =
      HashTable.get id 11
        (HashTable.insert id 11 9 (HashTable.new Nat Nat)) ∧
    HashTable.get id 11
        (HashTable.remove id 3
          (HashTable.insert id 11 9 (HashTable.new Nat Nat))) =
      HashTable.get id 11
        (HashTable.insert id 11 9 (HashTable.new Nat Nat)) :=
  ⟨by decide,
    C10_other_keys_unchanged id 3 11 7
      (HashTable.insert id 11 9 (HashTable.new Nat Nat)) (by decide)⟩

end HashTbl
